import Mathlib

/-!
Verification of the content-addressed storage core: the Postgres-backed
object tracker (`src/server/pkg/storage/tracker/pg_tracker.go`), the chunk
client and its GC deleter (`src/server/pkg/storage/chunk/client.go`), the
garbage-collector loop and the TTL renewers, and the index tree layer.

The Go code is embedded shallowly: each SQL statement of the tracker is
translated into a pure function on an explicit `TrackerState`, transactions
become `Except`-valued functions whose error is rolled back by `withTx`,
and the time-driven loops become explicitly scheduled step functions.
-/

namespace Pach

/-- A row of `storage.tracker_objects`:
`int_id BIGSERIAL PRIMARY KEY, str_id VARCHAR(4096) UNIQUE,
tombstone BOOLEAN NOT NULL DEFAULT FALSE, expires_at TIMESTAMP`.
(`created_at` is never read by the code under study and is omitted.)
Timestamps are microsecond counts, as the SQL uses
`CURRENT_TIMESTAMP + $2 * interval '1 microsecond'`. -/
structure TrackedObj where
  intId : Nat
  strId : String
  tombstone : Bool
  expiresAt : Option Int
deriving Repr, DecidableEq

/-- The tracker's database state: the `storage.tracker_objects` table, the
`storage.tracker_refs(from_id, to_id)` table, and the BIGSERIAL counter. -/
structure TrackerState where
  objects : List TrackedObj
  refs : List (Nat × Nat)
  nextId : Nat
deriving Repr, DecidableEq

/-- The tracker's error taxonomy (`ErrObjectExists`, `ErrSelfReference`,
`ErrDanglingRef`, `ErrNotTombstone`) plus `sql.ErrNoRows`, the driver error a
`GetContext` raises when a statement returns no row. -/
inductive TrackerErr where
  | objectExists
  | selfReference
  | danglingRef
  | notTombstone
  | noRows
deriving Repr, DecidableEq

/-- A fresh database: both tables empty, BIGSERIAL at 1. -/
def emptyState : TrackerState := ⟨[], [], 1⟩

/-- `withTx` (pg_tracker.go): run the callback; on error roll the
transaction back, leaving the caller's state unchanged. -/
def withTx (s : TrackerState) (r : Except TrackerErr TrackerState) :
    TrackerState × Option TrackerErr :=
  match r with
  | .ok s2 => (s2, none)
  | .error e => (s, some e)

/-- The row `CreateObject`'s insert adds: next serial `int_id`, the given
`str_id`, `tombstone = false`, `expires_at = now + ttl` when `ttl > 0`
and NULL otherwise. -/
def newRow (s : TrackerState) (now : Int) (id : String) (ttl : Int) :
    TrackedObj :=
  ⟨s.nextId, id, false, if ttl > 0 then some (now + ttl) else none⟩

/-- The transaction body of `PostgresTracker.CreateObject`:
1. `INSERT INTO storage.tracker_objects … ON CONFLICT (str_id) DO NOTHING
   RETURNING int_id` read through `GetContext`, whose `sql.ErrNoRows` on a
   conflict is mapped to `ErrObjectExists`;
2. `INSERT INTO storage.tracker_refs (from_id, to_id)
   SELECT $1, int_id FROM storage.tracker_objects WHERE str_id = ANY($2)
   RETURNING to_id`: one edge per row of the (post-insert) objects table
   whose `str_id` is listed in `pointsTo`;
3. if fewer edges than `len(pointsTo)` came back, `ErrDanglingRef`. -/
def createObjectTx (s : TrackerState) (now : Int) (id : String)
    (pointsTo : List String) (ttl : Int) : Except TrackerErr TrackerState :=
  if s.objects.any (fun r => r.strId == id) then .error .objectExists
  else if ((s.objects ++ [newRow s now id ttl]).filter
      (fun r => pointsTo.contains r.strId)).length ≠ pointsTo.length then
    .error .danglingRef
  else .ok ⟨s.objects ++ [newRow s now id ttl],
    s.refs ++ ((s.objects ++ [newRow s now id ttl]).filter
      (fun r => pointsTo.contains r.strId)).map (fun r => (s.nextId, r.intId)),
    s.nextId + 1⟩

/-- `PostgresTracker.CreateObject`: reject a self-reference before touching
the database, then run the transaction (rolled back on any error). -/
def createObject (s : TrackerState) (now : Int) (id : String)
    (pointsTo : List String) (ttl : Int) : TrackerState × Option TrackerErr :=
  if pointsTo.any (fun d => d == id) then (s, some .selfReference)
  else withTx s (createObjectTx s now id pointsTo ttl)

/-- Go's `strings.HasPrefix` (used by `deleter.Delete`) as a byte-wise
prefix test; also the "begins with" notion of the claims. -/
def goHasPre (p s : String) : Bool := p.data.isPrefixOf s.data

/-- In a LIKE step that must consume one arbitrary character (`_`): fail on
the empty string, else continue with the rest. -/
def likeConsume (k : List Char → Bool) : List Char → Bool
  | [] => false
  | _ :: s' => k s'

/-- In a LIKE step that must consume the literal character `c`: fail on the
empty string, else compare and continue with the rest. -/
def likeLit (c : Char) (k : List Char → Bool) : List Char → Bool
  | [] => false
  | c' :: s' => c == c' && k s'

/-- The external metadata DB's `LIKE` operator (PostgreSQL semantics, the
default `\` escape): `%` matches any character sequence (so `'%' :: ps`
matches `s` iff `ps` matches some suffix of `s`), `_` matches exactly one
character, `\x` matches the literal `x`, any other pattern character
matches itself. (A pattern ending in a lone `\` is an error in PostgreSQL;
here it matches a literal `\`, a case no call site of this repository can
produce since the tracker always appends `%` to the caller's prefix.) -/
def likeMatch : List Char → List Char → Bool
  | [], s => s.isEmpty
  | '%' :: ps, s => s.tails.any (likeMatch ps)
  | '_' :: ps, s => likeConsume (likeMatch ps) s
  | '\\' :: c2 :: ps, s => likeLit c2 (likeMatch ps) s
  | c :: ps, s => likeLit c (likeMatch ps) s

/-- `PostgresTracker.SetTTLPrefix`:
`UPDATE storage.tracker_objects SET expires_at = now + ttl
WHERE str_id LIKE $1 || '%' RETURNING expires_at`, read through
`GetContext`: the WHERE clause applies SQL `LIKE` with the pattern
`prefix || '%'` — wildcards inside the caller's prefix are interpreted —
and when no row matches, the scan of an empty result set raises
`sql.ErrNoRows` and the call returns that error; otherwise every matching
row's `expires_at` becomes `now + ttl` and that value is returned. -/
def setTTLPre (s : TrackerState) (now : Int) (p : String) (ttl : Int) :
    (TrackerState × Option Int) × Option TrackerErr :=
  if s.objects.any (fun r => likeMatch (p.data ++ ['%']) r.strId.data) then
    (⟨⟨s.objects.map (fun r =>
        if likeMatch (p.data ++ ['%']) r.strId.data then
          { r with expiresAt := some (now + ttl) } else r),
      s.refs, s.nextId⟩, some (now + ttl)⟩, none)
  else ((s, none), some .noRows)

/-- The `NOT EXISTS` subquery of `MarkTombstone`: whether some
`storage.tracker_refs` row targets one of the `int_id`s of the rows whose
`str_id` is `id`. -/
def hasInboundEdge (s : TrackerState) (id : String) : Bool :=
  s.refs.any (fun e =>
    (((s.objects.filter (fun r => r.strId == id)).map (·.intId)).contains e.2))

/-- `PostgresTracker.MarkTombstone`:
`UPDATE storage.tracker_objects SET tombstone = (CASE WHEN NOT EXISTS
(SELECT from_id FROM storage.tracker_refs WHERE to_id IN
(SELECT int_id FROM storage.tracker_objects WHERE str_id = $1))
THEN TRUE ELSE FALSE END) WHERE str_id = $1 RETURNING tombstone`:
every row named `id` gets `tombstone := !hasInboundEdge` (a `true` flag is
overwritten to `false` when an inbound edge appeared since). No row back
means the object does not exist: return nil. A returned `false` means
setting the flag would create a dangling ref: `ErrDanglingRef`. -/
def markTombstone (s : TrackerState) (id : String) :
    TrackerState × Option TrackerErr :=
  if s.objects.any (fun r => r.strId == id) then
    if !(hasInboundEdge s id) then
      (⟨s.objects.map (fun r =>
          if r.strId == id then { r with tombstone := true } else r),
        s.refs, s.nextId⟩, none)
    else
      (⟨s.objects.map (fun r =>
          if r.strId == id then { r with tombstone := false } else r),
        s.refs, s.nextId⟩, some .danglingRef)
  else (s, none)

/-- The transaction body of `PostgresTracker.FinishDelete`:
1. `DELETE FROM storage.tracker_objects WHERE str_id = $1 RETURNING tombstone`
   through `GetContext` (`sql.ErrNoRows` when the row is absent);
2. if the deleted row was not tombstoned, `ErrNotTombstone`;
3. `DELETE FROM storage.tracker_refs WHERE from_id IN
   (SELECT int_id FROM storage.tracker_objects WHERE str_id = $1)`:
   the subselect runs against the objects table *after* step 1's delete in
   the same transaction, so it matches nothing. -/
def finishDeleteTx (s : TrackerState) (id : String) :
    Except TrackerErr TrackerState := do
  match s.objects.filter (fun r => r.strId == id) with
  | [] => throw .noRows
  | r :: _ =>
    let s1 : TrackerState :=
      ⟨s.objects.filter (fun r2 => !(r2.strId == id)), s.refs, s.nextId⟩
    if !r.tombstone then throw .notTombstone
    let survInts := (s1.objects.filter (fun r2 => r2.strId == id)).map (·.intId)
    pure ⟨s1.objects, s1.refs.filter (fun e => !(survInts.contains e.1)), s1.nextId⟩

/-- `PostgresTracker.FinishDelete`: run the transaction; the trailing error
handling is `if err == sql.ErrNoRows { return nil }; return nil`, which
returns nil on every path (rolled-back errors included). -/
def finishDelete (s : TrackerState) (id : String) :
    TrackerState × Option TrackerErr :=
  match withTx s (finishDeleteTx s id) with
  | (s2, _) => (s2, none)

/-- A call against the tracker, for reachability statements. -/
inductive TrackerOp where
  | create (now : Int) (id : String) (pointsTo : List String) (ttl : Int)
  | setTTL (now : Int) (p : String) (ttl : Int)
  | mark (id : String)
  | finish (id : String)
deriving Repr

/-- Apply one call, keeping the (possibly rolled-back) resulting state. -/
def applyOp (s : TrackerState) : TrackerOp → TrackerState
  | .create now id pointsTo ttl => (createObject s now id pointsTo ttl).1
  | .setTTL now p ttl => ((setTTLPre s now p ttl).1).1
  | .mark id => (markTombstone s id).1
  | .finish id => (finishDelete s id).1

/-- Run a sequence of tracker calls from a starting state. -/
def runOps (s : TrackerState) (ops : List TrackerOp) : TrackerState :=
  ops.foldl applyOp s

/-- Deletion safety (spec §3 invariant 5): some non-tombstoned row has an
edge to some tombstoned row. -/
def liveRefToTombstone (s : TrackerState) : Bool :=
  s.objects.any (fun o => !o.tombstone &&
    s.objects.any (fun t => t.tombstone && s.refs.contains (o.intId, t.intId)))

/-- C2. In the reachable state holding `a` and a tombstoned `b` with the
single edge `b → a`, `FinishDelete "b"` returns nil and removes `b`'s row,
but `b`'s outbound edge `(2, 1)` survives: the refs-delete subselect runs
after the row delete inside the same transaction and matches nothing, so
outbound edges are never removed, contradicting the claim that they are
absent afterwards. -/
theorem finishDelete_keeps_outbound_edges :
    (∃ r ∈ (runOps emptyState [.create 0 "a" [] 0, .create 0 "b" ["a"] 0,
        .mark "b"]).objects, r.strId = "b" ∧ r.tombstone = true) ∧
    (finishDelete (runOps emptyState [.create 0 "a" [] 0, .create 0 "b" ["a"] 0,
        .mark "b"]) "b").2 = none ∧
    (∀ r ∈ (finishDelete (runOps emptyState [.create 0 "a" [] 0,
        .create 0 "b" ["a"] 0, .mark "b"]) "b").1.objects, r.strId ≠ "b") ∧
    (finishDelete (runOps emptyState [.create 0 "a" [] 0, .create 0 "b" ["a"] 0,
        .mark "b"]) "b").1.refs = [(2, 1)] := by
  decide

/-- C3 counterexample. On a reachable state whose row `a` exists with
`tombstone = false`, `FinishDelete "a"` returns nil, not `ErrNotTombstone`:
the function ends in `if err == sql.ErrNoRows { return nil }; return nil`,
so every error of the transaction is swallowed. -/
theorem finishDelete_swallows_notTombstone :
    (∃ r ∈ ((createObject emptyState 0 "a" [] 0).1).objects,
        r.strId = "a" ∧ r.tombstone = false) ∧
    (finishDelete ((createObject emptyState 0 "a" [] 0).1) "a").2 ≠
      some TrackerErr.notTombstone := by
  decide

/-- C3 amended. `FinishDelete` returns nil on every input; when every row
named `id` is non-tombstoned (in particular when the row is absent), the
transaction rolls back and the state is unchanged. -/
theorem finishDelete_always_nil (s : TrackerState) (id : String) :
    (finishDelete s id).2 = none ∧
    ((∀ r ∈ s.objects, r.strId = id → r.tombstone = false) →
      (finishDelete s id).1 = s) := by
  constructor
  · rfl
  · intro h
    unfold finishDelete withTx finishDeleteTx
    cases hf : s.objects.filter (fun r => r.strId == id) with
    | nil => rfl
    | cons r rest =>
      have hr : r ∈ s.objects.filter (fun r => r.strId == id) := by
        rw [hf]; exact List.mem_cons_self r rest
      have hid : r.strId = id := by simpa using List.of_mem_filter hr
      have : r.tombstone = false := h r (List.mem_of_mem_filter hr) hid
      simp [this]
      rfl

/-- C3 amended, applied: on the one-row non-tombstoned state the call
returns nil and changes nothing. -/
theorem finishDelete_always_nil_witness :
    (finishDelete ((createObject emptyState 0 "a" [] 0).1) "a").2 = none ∧
    (finishDelete ((createObject emptyState 0 "a" [] 0).1) "a").1 =
      (createObject emptyState 0 "a" [] 0).1 :=
  ⟨(finishDelete_always_nil ((createObject emptyState 0 "a" [] 0).1) "a").1,
   (finishDelete_always_nil ((createObject emptyState 0 "a" [] 0).1) "a").2
     (by decide)⟩

/-- C4. The deletion-safety invariant fails on a reachable state: after
`CreateObject "a"`, `MarkTombstone "a"` (which succeeds, `a` being
unreferenced), a subsequent `CreateObject "b" ["a"]` still returns nil —
the edge-insert joins on `str_id` alone and never checks `tombstone` — so
the non-tombstoned `b` now points to the tombstoned `a`. -/
theorem live_reference_to_tombstoned_object :
    (createObject (runOps emptyState [.create 0 "a" [] 0, .mark "a"])
        0 "b" ["a"] 0).2 = none ∧
    liveRefToTombstone (runOps emptyState
        [.create 0 "a" [] 0, .mark "a", .create 0 "b" ["a"] 0]) = true := by
  decide

/-- C6 counterexample. Reachable state: create `a`, create `b → a`,
tombstone `b`, `FinishDelete "b"`. The edge `(2, 1)` is orphaned (its
source row is gone), so no row points to `a`; yet `MarkTombstone "a"`
returns `ErrDanglingRef` and leaves `a`'s tombstone false, refuting
"sets tombstone = true iff the row exists and no other row points to it". -/
theorem markTombstone_blocked_by_orphan_edge :
    (∃ r ∈ (runOps emptyState [.create 0 "a" [] 0, .create 0 "b" ["a"] 0,
        .mark "b", .finish "b"]).objects, r.strId = "a") ∧
    (∀ o ∈ (runOps emptyState [.create 0 "a" [] 0, .create 0 "b" ["a"] 0,
        .mark "b", .finish "b"]).objects,
     ∀ t ∈ (runOps emptyState [.create 0 "a" [] 0, .create 0 "b" ["a"] 0,
        .mark "b", .finish "b"]).objects, t.strId = "a" →
      (o.intId, t.intId) ∉ (runOps emptyState [.create 0 "a" [] 0,
        .create 0 "b" ["a"] 0, .mark "b", .finish "b"]).refs) ∧
    (markTombstone (runOps emptyState [.create 0 "a" [] 0,
        .create 0 "b" ["a"] 0, .mark "b", .finish "b"]) "a").2 =
      some TrackerErr.danglingRef ∧
    (∀ r ∈ (markTombstone (runOps emptyState [.create 0 "a" [] 0,
        .create 0 "b" ["a"] 0, .mark "b", .finish "b"]) "a").1.objects,
      r.strId = "a" → r.tombstone = false) := by
  decide

/-- C6 amended. `MarkTombstone id` sets `tombstone = true` iff the row
exists and no `tracker_refs` edge targets it — counting edges whose source
row no longer exists (`FinishDelete` orphans outbound edges). Absent row:
nil, no change. Inbound edge present: `ErrDanglingRef` and the row's
tombstone flag is false after the call. -/
theorem markTombstone_spec (s : TrackerState) (id : String) :
    ((∀ r ∈ s.objects, r.strId ≠ id) → markTombstone s id = (s, none)) ∧
    ((∃ r ∈ s.objects, r.strId = id) → hasInboundEdge s id = false →
      (markTombstone s id).2 = none ∧
      ∀ r ∈ (markTombstone s id).1.objects, r.strId = id → r.tombstone = true) ∧
    ((∃ r ∈ s.objects, r.strId = id) → hasInboundEdge s id = true →
      (markTombstone s id).2 = some TrackerErr.danglingRef ∧
      ∀ r ∈ (markTombstone s id).1.objects, r.strId = id → r.tombstone = false) := by
  refine ⟨fun habs => ?_, fun hex hin => ?_, fun hex hin => ?_⟩
  · have h : s.objects.any (fun r => r.strId == id) = false := by
      simp only [List.any_eq_false]
      intro r hr
      simpa using habs r hr
    unfold markTombstone
    rw [h]
    rfl
  · have h : s.objects.any (fun r => r.strId == id) = true := by
      simp only [List.any_eq_true]
      obtain ⟨r, hr, hrid⟩ := hex
      exact ⟨r, hr, by simpa using hrid⟩
    have hres : markTombstone s id =
        (⟨s.objects.map (fun r =>
            if r.strId == id then { r with tombstone := true } else r),
          s.refs, s.nextId⟩, none) := by
      unfold markTombstone
      rw [hin, h]
      rfl
    rw [hres]
    refine ⟨rfl, ?_⟩
    intro r hr hrid
    simp only [List.mem_map] at hr
    obtain ⟨r0, _hr0, hr0eq⟩ := hr
    by_cases hc : r0.strId = id
    · rw [← hr0eq]
      simp [hc]
    · exfalso
      rw [← hr0eq] at hrid
      simp [hc] at hrid
  · have h : s.objects.any (fun r => r.strId == id) = true := by
      simp only [List.any_eq_true]
      obtain ⟨r, hr, hrid⟩ := hex
      exact ⟨r, hr, by simpa using hrid⟩
    have hres : markTombstone s id =
        (⟨s.objects.map (fun r =>
            if r.strId == id then { r with tombstone := false } else r),
          s.refs, s.nextId⟩, some TrackerErr.danglingRef) := by
      unfold markTombstone
      rw [hin, h]
      rfl
    rw [hres]
    refine ⟨rfl, ?_⟩
    intro r hr hrid
    simp only [List.mem_map] at hr
    obtain ⟨r0, _hr0, hr0eq⟩ := hr
    by_cases hc : r0.strId = id
    · rw [← hr0eq]
      simp [hc]
    · exfalso
      rw [← hr0eq] at hrid
      simp [hc] at hrid

/-- C6 amended, applied: on the orphan-edge state, `MarkTombstone "a"` has
an inbound edge and thus errors with the flag left false, and on the
fresh two-row state it tombstones the unreferenced `b`. -/
theorem markTombstone_spec_witness :
    ((markTombstone (runOps emptyState [.create 0 "a" [] 0,
        .create 0 "b" ["a"] 0, .mark "b", .finish "b"]) "a").2 =
      some TrackerErr.danglingRef ∧
     ∀ r ∈ (markTombstone (runOps emptyState [.create 0 "a" [] 0,
        .create 0 "b" ["a"] 0, .mark "b", .finish "b"]) "a").1.objects,
       r.strId = "a" → r.tombstone = false) ∧
    ((markTombstone (runOps emptyState [.create 0 "a" [] 0,
        .create 0 "b" ["a"] 0]) "b").2 = none ∧
     ∀ r ∈ (markTombstone (runOps emptyState [.create 0 "a" [] 0,
        .create 0 "b" ["a"] 0]) "b").1.objects,
       r.strId = "b" → r.tombstone = true) :=
  ⟨(markTombstone_spec (runOps emptyState [.create 0 "a" [] 0,
      .create 0 "b" ["a"] 0, .mark "b", .finish "b"]) "a").2.2
      (by decide) (by decide),
   (markTombstone_spec (runOps emptyState [.create 0 "a" [] 0,
      .create 0 "b" ["a"] 0]) "b").2.1 (by decide) (by decide)⟩

/-- With `str_id` UNIQUE, the rows matched by `str_id = ANY(pts)` keep
distinct `str_id`s. -/
theorem matched_strIds_nodup (objs : List TrackedObj) (q : TrackedObj → Bool)
    (hn : (objs.map (·.strId)).Nodup) :
    ((objs.filter q).map (·.strId)).Nodup :=
  List.Nodup.sublist ((objs.filter_sublist).map (·.strId)) hn

/-- With `str_id` UNIQUE, the edge insert returns `len(pts)` rows only if
every element of `pts` is matched by some row. -/
theorem any_matched_of_length_eq (objs : List TrackedObj) (pts : List String)
    (hn : (objs.map (·.strId)).Nodup)
    (hlen : (objs.filter (fun r => pts.contains r.strId)).length = pts.length) :
    ∀ t ∈ pts, t ∈ (objs.filter (fun r => pts.contains r.strId)).map (·.strId) := by
  intro t ht
  by_contra hcon
  have hMnodup : ((objs.filter (fun r => pts.contains r.strId)).map
      (·.strId)).Nodup := matched_strIds_nodup objs _ hn
  have hsub : ((objs.filter (fun r => pts.contains r.strId)).map
      (·.strId)).toFinset ⊆ pts.toFinset.erase t := by
    intro x hx
    rw [List.mem_toFinset] at hx
    have hxpts : x ∈ pts := by
      obtain ⟨r, hr, hrx⟩ := List.mem_map.mp hx
      have := List.of_mem_filter hr
      rw [← hrx]
      simpa using this
    exact Finset.mem_erase.mpr ⟨fun hxt => hcon (hxt ▸ hx),
      List.mem_toFinset.mpr hxpts⟩
  have h1 : ((objs.filter (fun r => pts.contains r.strId)).map
      (·.strId)).toFinset.card = pts.length := by
    rw [List.toFinset_card_of_nodup hMnodup]
    simpa using hlen
  have h2 := Finset.card_le_card hsub
  have h3 : (pts.toFinset.erase t).card < pts.toFinset.card :=
    Finset.card_erase_lt_of_mem (List.mem_toFinset.mpr ht)
  have h4 := List.toFinset_card_le pts
  omega

/-- In the transaction's edge insert, the freshly inserted row itself is
never matched when `id ∉ pts`. -/
theorem filter_append_newRow (s : TrackerState) (now : Int) (id : String)
    (pts : List String) (ttl : Int) (hid : id ∉ pts) :
    (s.objects ++ [newRow s now id ttl]).filter
        (fun r => pts.contains r.strId) =
      s.objects.filter (fun r => pts.contains r.strId) := by
  rw [List.filter_append]
  have hstr : (newRow s now id ttl).strId = id := rfl
  have hsingle : List.filter (fun r => pts.contains r.strId)
      [newRow s now id ttl] = [] := by
    simp [hstr, hid]
  rw [hsingle, List.append_nil]

/-- C5. `CreateObject` is atomic: every error (self-reference, existing
object, dangling ref) leaves the state unchanged; a nil return means the
fresh row was appended and the refs table gained exactly one edge from the
new row to each `pointsTo` target, every target accounted for; and
`CreateObject "x" ["missing"]` on the empty tracker returns
`ErrDanglingRef` leaving it empty. -/
theorem createObject_atomic (s : TrackerState) (now : Int) (id : String)
    (pts : List String) (ttl : Int)
    (hn : (s.objects.map (·.strId)).Nodup) :
    (∀ e, (createObject s now id pts ttl).2 = some e →
      (createObject s now id pts ttl).1 = s) ∧
    ((createObject s now id pts ttl).2 = none →
      (createObject s now id pts ttl).1.objects =
        s.objects ++ [newRow s now id ttl] ∧
      (createObject s now id pts ttl).1.refs =
        s.refs ++ (s.objects.filter (fun r => pts.contains r.strId)).map
          (fun r => (s.nextId, r.intId)) ∧
      (∀ t ∈ pts, ∃ r ∈ s.objects, r.strId = t ∧
        (s.nextId, r.intId) ∈ (createObject s now id pts ttl).1.refs)) ∧
    createObject emptyState 0 "x" ["missing"] 0 =
      (emptyState, some TrackerErr.danglingRef) := by
  refine ⟨?_, ?_, by decide⟩
  · intro e
    unfold createObject
    by_cases hself : pts.any (fun d => d == id) = true
    · rw [if_pos hself]
      intro _
      rfl
    · rw [if_neg hself]
      cases htx : createObjectTx s now id pts ttl with
      | ok s2 => intro hc; simp [withTx, htx] at hc
      | error e2 => intro _; simp [withTx, htx]
  · intro hok
    have hself : pts.any (fun d => d == id) = false := by
      by_contra hc
      rw [Bool.not_eq_false] at hc
      unfold createObject at hok
      rw [if_pos hc] at hok
      simp at hok
    have hidpts : id ∉ pts := by
      intro hmem
      have : pts.any (fun d => d == id) = true := by
        simp only [List.any_eq_true]
        exact ⟨id, hmem, by simp⟩
      rw [this] at hself
      cases hself
    unfold createObject at hok ⊢
    rw [if_neg (by simp [hself])] at hok ⊢
    cases htx : createObjectTx s now id pts ttl with
    | error e2 => rw [htx] at hok; simp [withTx] at hok
    | ok s2 =>
      unfold createObjectTx at htx
      by_cases hex : s.objects.any (fun r => r.strId == id) = true
      · rw [if_pos hex] at htx; cases htx
      · rw [if_neg hex] at htx
        by_cases hlen : ((s.objects ++ [newRow s now id ttl]).filter
            (fun r => pts.contains r.strId)).length ≠ pts.length
        · rw [if_pos hlen] at htx; cases htx
        · rw [if_neg hlen] at htx
          rw [Except.ok.injEq] at htx
          rw [Bool.not_eq_true] at hex
          rw [not_not] at hlen
          rw [filter_append_newRow s now id pts ttl hidpts] at hlen htx
          refine ⟨by rw [← htx]; rfl, by rw [← htx]; rfl, ?_⟩
          intro t ht
          have hmem := any_matched_of_length_eq s.objects pts hn hlen t ht
          obtain ⟨r, hr, hrt⟩ := List.mem_map.mp hmem
          refine ⟨r, List.mem_of_mem_filter hr, hrt, ?_⟩
          show (s.nextId, r.intId) ∈ (withTx s (Except.ok s2)).1.refs
          simp only [withTx]
          rw [← htx]
          simp only [List.mem_append]
          right
          exact List.mem_map_of_mem _ hr

/-- C5, applied: on the one-row state `{a}`, `CreateObject "b" ["a"]`
succeeds with exactly the edge to `a`, and the two closed error facts
hold. -/
theorem createObject_atomic_witness :
    ((createObject ((createObject emptyState 0 "a" [] 0).1) 0 "b" ["a"] 0).2 =
        none →
      (createObject ((createObject emptyState 0 "a" [] 0).1) 0 "b" ["a"] 0).1.objects =
        ((createObject emptyState 0 "a" [] 0).1).objects ++
          [newRow ((createObject emptyState 0 "a" [] 0).1) 0 "b" 0] ∧
      (createObject ((createObject emptyState 0 "a" [] 0).1) 0 "b" ["a"] 0).1.refs =
        ((createObject emptyState 0 "a" [] 0).1).refs ++
          (((createObject emptyState 0 "a" [] 0).1).objects.filter
            (fun r => (["a"] : List String).contains r.strId)).map
            (fun r => (((createObject emptyState 0 "a" [] 0).1).nextId, r.intId)) ∧
      (∀ t ∈ (["a"] : List String),
        ∃ r ∈ ((createObject emptyState 0 "a" [] 0).1).objects, r.strId = t ∧
          (((createObject emptyState 0 "a" [] 0).1).nextId, r.intId) ∈
            (createObject ((createObject emptyState 0 "a" [] 0).1) 0 "b" ["a"] 0).1.refs)) ∧
    createObject emptyState 0 "x" ["missing"] 0 =
      (emptyState, some TrackerErr.danglingRef) :=
  ⟨(createObject_atomic ((createObject emptyState 0 "a" [] 0).1) 0 "b" ["a"] 0
      (by decide)).2.1,
   (createObject_atomic ((createObject emptyState 0 "a" [] 0).1) 0 "b" ["a"] 0
      (by decide)).2.2⟩

/-- C10. A `pointsTo` list that names the same existing target twice always
fails with `ErrDanglingRef` and leaves the tracker unchanged: the edge
insert joins the objects table against the array, so a duplicated element
matches the same single row and the returned edge count falls short of
`len(pointsTo)`. -/
theorem createObject_duplicate_target (s : TrackerState) (now : Int)
    (id : String) (pts : List String) (ttl : Int)
    (hn : (s.objects.map (·.strId)).Nodup)
    (hfresh : ∀ r ∈ s.objects, r.strId ≠ id)
    (hidpts : id ∉ pts)
    (_hall : ∀ t ∈ pts, ∃ r ∈ s.objects, r.strId = t)
    (hdup : ∃ t, 1 < pts.count t) :
    createObject s now id pts ttl = (s, some TrackerErr.danglingRef) := by
  have hself : pts.any (fun d => d == id) = false := by
    simp only [List.any_eq_false]
    intro d hd
    simp only [beq_iff_eq]
    intro hde
    exact hidpts (hde ▸ hd)
  have hex : s.objects.any (fun r => r.strId == id) = false := by
    simp only [List.any_eq_false]
    intro r hr
    simpa using hfresh r hr
  have hnotnodup : ¬ pts.Nodup := by
    obtain ⟨t, ht⟩ := hdup
    intro hnd
    have := List.nodup_iff_count_le_one.mp hnd t
    omega
  have hdedup : pts.dedup.length < pts.length := by
    have hs := List.dedup_sublist pts
    rcases Nat.lt_or_ge pts.dedup.length pts.length with h1 | h1
    · exact h1
    · exact absurd ((hs.eq_of_length (le_antisymm hs.length_le h1)) ▸
        pts.nodup_dedup) hnotnodup
  have hlt : ((s.objects ++ [newRow s now id ttl]).filter
      (fun r => pts.contains r.strId)).length < pts.length := by
    rw [filter_append_newRow s now id pts ttl hidpts]
    have hMnodup := matched_strIds_nodup s.objects
      (fun r => pts.contains r.strId) hn
    have hcard : ((s.objects.filter (fun r => pts.contains r.strId)).map
        (·.strId)).toFinset.card =
        (s.objects.filter (fun r => pts.contains r.strId)).length := by
      rw [List.toFinset_card_of_nodup hMnodup]
      simp
    have hsub : ((s.objects.filter (fun r => pts.contains r.strId)).map
        (·.strId)).toFinset ⊆ pts.toFinset := by
      intro x hx
      rw [List.mem_toFinset] at hx
      obtain ⟨r, hr, hrx⟩ := List.mem_map.mp hx
      have := List.of_mem_filter hr
      rw [List.mem_toFinset, ← hrx]
      simpa using this
    have hc2 := Finset.card_le_card hsub
    have hc3 : pts.toFinset.card = pts.dedup.length := List.card_toFinset pts
    omega
  unfold createObject
  rw [if_neg (by simp [hself])]
  unfold createObjectTx
  rw [if_neg (by simp [hex]), if_pos (by omega)]
  rfl

/-- C10, applied: `CreateObject "b" ["a", "a"]` on the one-row state `{a}`
returns `ErrDanglingRef` and changes nothing, though `a` exists. -/
theorem createObject_duplicate_target_witness :
    createObject ((createObject emptyState 0 "a" [] 0).1) 0 "b" ["a", "a"] 0 =
      ((createObject emptyState 0 "a" [] 0).1,
        some TrackerErr.danglingRef) :=
  createObject_duplicate_target ((createObject emptyState 0 "a" [] 0).1) 0
    "b" ["a", "a"] 0 (by decide) (by decide) (by decide) (by decide)
    ⟨"a", by decide⟩

/-- The renew callback installed by `track.NewRenewer` — one
`SetTTLPrefix(id + "/", ttl)` — as invoked by `renew.Renewer`'s background
loop, which calls it once immediately (before the first tick) and
terminates with any error it returns. -/
def renewerFirstRenew (tr : TrackerState) (rid : String) (now ttl : Int) :
    TrackerState × Option TrackerErr :=
  ((setTTLPre tr now (rid ++ "/") ttl).1.1, (setTTLPre tr now (rid ++ "/") ttl).2)

/-- C9 counterexample. The WHERE clause is `str_id LIKE prefix || '%'`, so
a `%` in the caller's prefix is a wildcard: on a tracker holding only
`chunk/ab`, whose `str_id` does not begin with `"%"`, `SetTTLPrefix "%"`
matches the row (`LIKE '%%'` matches everything) and succeeds instead of
returning an error, refuting the for-every-prefix claim. -/
theorem setTTL_wildcard_matches_without_literal_prefix :
    (∀ r ∈ ((createObject emptyState 0 "chunk/ab" [] 0).1).objects,
        goHasPre "%" r.strId = false) ∧
    (setTTLPre ((createObject emptyState 0 "chunk/ab" [] 0).1) 7 "%" 3).2 =
      none := by
  decide

/-- On a pattern free of LIKE metacharacters, `LIKE p || '%'` is exactly
the literal byte-prefix test. -/
theorem likeMatch_literal : ∀ (p s : List Char),
    (∀ c ∈ p, c ≠ '%' ∧ c ≠ '_' ∧ c ≠ '\\') →
    likeMatch (p ++ ['%']) s = p.isPrefixOf s := by
  intro p
  induction p with
  | nil =>
    intro s _
    have h2 : List.isPrefixOf ([] : List Char) s = true := by cases s <;> rfl
    rw [List.nil_append, h2, likeMatch.eq_2, List.any_eq_true]
    exact ⟨[], (List.mem_tails _ _).mpr List.nil_suffix, rfl⟩
  | cons c cs ih =>
    intro s hclean
    obtain ⟨hc1, hc2, hc3⟩ := hclean c (List.mem_cons_self c cs)
    have hcs : ∀ x ∈ cs, x ≠ '%' ∧ x ≠ '_' ∧ x ≠ '\\' :=
      fun x hx => hclean x (List.mem_cons_of_mem c hx)
    rw [List.cons_append, likeMatch.eq_5 s c (cs ++ ['%'])
      (fun h => hc1 h) (fun h => hc2 h) (fun _ _ h _ => hc3 h)]
    cases s with
    | nil => rfl
    | cons c' s' =>
      show (c == c' && likeMatch (cs ++ ['%']) s') =
        (c :: cs).isPrefixOf (c' :: s')
      rw [ih s' hcs]
      rfl

/-- C9 amended. For every prefix free of the LIKE metacharacters `%`, `_`
and `\`, when no tracked object's `str_id` begins with the prefix,
`SetTTLPrefix` returns `sql.ErrNoRows` with no state change (its
UPDATE…RETURNING is read with `GetContext`, and an empty result set is an
error, not a zero-row success); hence a prefix renewer whose metacharacter-
free id saw no `Add` — so that no object lives under `id + "/"` — fails on
its first background renew. (A prefix containing a wildcard can instead
match rows that do not begin with it.) -/
theorem setTTL_no_match_errors (s : TrackerState) (now : Int) (p : String)
    (ttl : Int) (rid : String)
    (hp : ∀ c ∈ p.data, c ≠ '%' ∧ c ≠ '_' ∧ c ≠ '\\')
    (h : ∀ r ∈ s.objects, goHasPre p r.strId = false)
    (hrid : ∀ c ∈ rid.data, c ≠ '%' ∧ c ≠ '_' ∧ c ≠ '\\')
    (h2 : ∀ r ∈ s.objects, goHasPre (rid ++ "/") r.strId = false) :
    setTTLPre s now p ttl = ((s, none), some TrackerErr.noRows) ∧
    renewerFirstRenew s rid now ttl = (s, some TrackerErr.noRows) := by
  have key : ∀ p2 : String, (∀ c ∈ p2.data, c ≠ '%' ∧ c ≠ '_' ∧ c ≠ '\\') →
      (∀ r ∈ s.objects, goHasPre p2 r.strId = false) →
      setTTLPre s now p2 ttl = ((s, none), some TrackerErr.noRows) := by
    intro p2 hp2 hmatch
    have hany : s.objects.any
        (fun r => likeMatch (p2.data ++ ['%']) r.strId.data) = false := by
      simp only [List.any_eq_false]
      intro r hr
      have hm := hmatch r hr
      unfold goHasPre at hm
      rw [likeMatch_literal p2.data r.strId.data hp2, hm]
      simp
    unfold setTTLPre
    rw [hany]
    rfl
  refine ⟨key p hp h, ?_⟩
  have hclean2 : ∀ c ∈ (rid ++ "/").data, c ≠ '%' ∧ c ≠ '_' ∧ c ≠ '\\' := by
    intro c hc
    rw [String.data_append] at hc
    rcases List.mem_append.mp hc with h1 | h1
    · exact hrid c h1
    · have hcc : c = '/' := by simpa using h1
      subst hcc
      exact ⟨by decide, by decide, by decide⟩
  unfold renewerFirstRenew
  rw [key (rid ++ "/") hclean2 h2]

/-- C9 amended, applied: on a tracker holding only the chunk object
`chunk/ab`, a renewer with the metacharacter-free id `tmp-x-y` that never
saw an `Add` fails its first renew, and `SetTTLPrefix "tmp-"` errors with
no state change. -/
theorem setTTL_no_match_errors_witness :
    setTTLPre ((createObject emptyState 0 "chunk/ab" [] 0).1) 7 "tmp-" 3 =
      ((((createObject emptyState 0 "chunk/ab" [] 0).1), none),
        some TrackerErr.noRows) ∧
    renewerFirstRenew ((createObject emptyState 0 "chunk/ab" [] 0).1)
      "tmp-x-y" 7 3 =
      (((createObject emptyState 0 "chunk/ab" [] 0).1),
        some TrackerErr.noRows) :=
  setTTL_no_match_errors ((createObject emptyState 0 "chunk/ab" [] 0).1) 7
    "tmp-" 3 "tmp-x-y" (by decide) (by decide) (by decide) (by decide)

/-- Modelled from the spec: `ID.HexString` (not under `src/`) — object ids
render the chunk id as "the lowercase hex of the 32-byte content hash".
A byte's high and low nibbles become lowercase hex digits. -/
def hexDigit (n : Nat) : Char :=
  if n < 10 then Char.ofNat (48 + n) else Char.ofNat (87 + n)

/-- Modelled from the spec: hex rendering of a byte string, two lowercase
digits per byte. -/
def hexString (bs : List Nat) : String :=
  ⟨bs.foldr (fun b acc => hexDigit (b / 16) :: hexDigit (b % 16) :: acc) []⟩

/-- `ChunkObjectID` (client.go): `"chunk/" + chunkID.HexString()`. -/
def ChunkObjectID (chunkID : List Nat) : String := "chunk/" ++ hexString chunkID

/-- `chunkPath` (client.go): `path.Join(prefix, chunkID.HexString())` with
`prefix = "chunks"` (storage.go), i.e. `"chunks/" + hex`. (The panic on an
empty id is not modelled; no claim evaluates it there.) -/
def chunkPath (chunkID : List Nat) : String := "chunks/" ++ hexString chunkID

/-- Modelled from the spec: the hex-decoding half of `ChunkIDFromHex` (not
under `src/`): value of one lowercase hex digit. -/
def hexVal (c : Char) : Option Nat :=
  if '0' ≤ c ∧ c ≤ '9' then some (c.toNat - 48)
  else if 'a' ≤ c ∧ c ≤ 'f' then some (c.toNat - 87)
  else none

/-- Modelled from the spec: `ChunkIDFromHex` (not under `src/`) — decode a
hex string back into the chunk id's bytes, failing on a malformed digit or
an odd length. -/
def chunkIDFromHexChars : List Char → Option (List Nat)
  | [] => some []
  | [_] => none
  | c1 :: c2 :: rest => do
      let hi ← hexVal c1
      let lo ← hexVal c2
      let tl ← chunkIDFromHexChars rest
      pure ((16 * hi + lo) :: tl)

/-- Modelled from the spec: `ChunkIDFromHex` on a string. -/
def ChunkIDFromHex (s : String) : Option (List Nat) :=
  chunkIDFromHexChars s.data

/-- The external stores the deleter touches: the blob store's keys and the
chunk metadata store's rows (keyed by chunk id). -/
structure ChunkStores where
  blobKeys : List String
  mdKeys : List (List Nat)
deriving Repr, DecidableEq

/-- `deleter.Delete` (client.go): `const prefix = "chunks/"`; an id without
that prefix is rejected with `cannot delete (id)`; otherwise parse the hex
suffix `id[len(prefix):]`, delete the blob at `chunkPath(chunkID)`, and
only then delete the metadata record (a failed blob delete leaves the
metadata in place). -/
def deleterDelete (st : ChunkStores) (id : String) :
    Except String ChunkStores :=
  if !(goHasPre "chunks/" id) then .error ("cannot delete (" ++ id ++ ")")
  else
    match ChunkIDFromHex ⟨id.data.drop 7⟩ with
    | none => .error "invalid hex"
    | some cid =>
      .ok ⟨st.blobKeys.filter (fun k => k ≠ chunkPath cid),
           st.mdKeys.filter (fun k => k ≠ cid)⟩

/-- C1. Every id `ChunkObjectID` produces starts with `"chunk/"`, but the
GC deleter demands the distinct prefix `"chunks/"` (the blob-path prefix),
so `Delete` rejects every chunk tracker object id with `cannot delete`
and touches neither the blob nor the metadata record — while an id carrying
the `"chunks/"` prefix would be parsed and deleted (blob, then metadata). -/
theorem deleter_rejects_chunk_object_ids (st : ChunkStores) (cid : List Nat) :
    deleterDelete st (ChunkObjectID cid) =
      .error ("cannot delete (" ++ ChunkObjectID cid ++ ")") := by
  have h : goHasPre "chunks/" (ChunkObjectID cid) = false := by
    unfold goHasPre ChunkObjectID
    rw [String.data_append]
    simp [List.isPrefixOf]
  unfold deleterDelete
  rw [h]
  rfl

/-- C1, the contrast: with the deleter's own prefix the same suffix parses
and both the blob and the metadata row disappear. -/
theorem deleter_accepts_chunks_prefixed_id :
    deleterDelete ⟨[chunkPath [171]], [[171]]⟩ ("chunks/" ++ hexString [171]) =
      .ok ⟨[], []⟩ := by
  rfl

/-- `GarbageCollector.Run` (tracker/gc.go): on iteration `i` the loop body is
`ctx, cf := context.WithTimeout(ctx, gc.period/2); runUntilEmpty(ctx);
cf(); select { case <-ctx.Done(): return nil; case <-ticker.C: }`.
The `select` waits on the freshly *shadowed* per-iteration context, which
`cf()` has already cancelled, so its Done channel is always ready.
`tickReady i` says whether a ticker tick is already pending when iteration
`i` reaches the select; `pickTick i` resolves Go's uniform choice when both
channels are ready. Each iteration performs one sweep (`runUntilEmpty`,
whose per-object errors are logged by `runOnce`'s callback and never abort
the drain). Returns `some n` when `Run` returns nil after `n` sweeps,
`none` when the fuel runs out. -/
def gcRun (tickReady pickTick : Nat → Bool) : Nat → Nat → Option Nat
  | 0, _ => none
  | fuel + 1, i =>
    if tickReady i && pickTick i then gcRun tickReady pickTick fuel (i + 1)
    else some (i + 1)

/-- C7. Whenever no ticker tick is pending at the first select — the normal
case, the sweep being bounded by a `period/2` timeout while the first tick
arrives at `period` — `Run` returns nil right after the first sweep, with
the outer context never cancelled: the loop neither repeats on every tick
nor stops only on context cancellation. -/
theorem gcRun_stops_after_first_sweep (fuel : Nat)
    (tickReady pickTick : Nat → Bool) (h : tickReady 0 = false) :
    gcRun tickReady pickTick (fuel + 1) 0 = some 1 := by
  simp [gcRun, h]

/-- C7, applied: one sweep, then exit. -/
theorem gcRun_stops_after_first_sweep_witness :
    gcRun (fun _ => false) (fun _ => true) 9 0 = some 1 :=
  gcRun_stops_after_first_sweep 8 (fun _ => false) (fun _ => true) rfl

/-! ### The index tree (writer and reader)

The index writer/reader sources are not among the repository files here —
only their test harness is — so the tree, the writer and the reader are
modelled from the spec (§4.4): paths are byte strings ordered
"case-sensitive, byte-ordered"; the writer buffers the strictly increasing
path stream, emits a level-0 chunk whenever the content-defined split gate
fires, records each emitted chunk's `[lower, upper]` path range as one
entry of the next level, recurses upward, and on Close returns the root;
the reader's `Iterate` with `WithPrefix(p)` descends only into child
ranges intersecting `p`'s prefix set and delivers every matching leaf
exactly once in ascending order. -/

/-- A file path as its byte sequence. -/
abbrev Path := List Nat

/-- Strict byte-wise lexicographic order on paths. -/
def lexLt : Path → Path → Bool
  | [], [] => false
  | [], _ :: _ => true
  | _ :: _, [] => false
  | a :: as, b :: bs =>
    if a < b then true else if b < a then false else lexLt as bs

/-- Byte-wise lexicographic order on paths, non-strict. -/
def lexLe : Path → Path → Bool
  | [], _ => true
  | _ :: _, [] => false
  | a :: as, b :: bs =>
    if a < b then true else if b < a then false else lexLe as bs

theorem lexLe_refl : ∀ a : Path, lexLe a a = true := by
  intro a
  induction a with
  | nil => rfl
  | cons x xs ih => simp [lexLe, ih]

theorem lexLe_of_lexLt : ∀ a b : Path, lexLt a b = true → lexLe a b = true := by
  intro a
  induction a with
  | nil => intro b _; simp [lexLe]
  | cons x xs ih =>
    intro b hab
    cases b with
    | nil => simp [lexLt] at hab
    | cons y ys =>
      simp only [lexLt] at hab
      simp only [lexLe]
      by_cases h1 : x < y
      · rw [if_pos h1]
      · rw [if_neg h1] at hab ⊢
        by_cases h2 : y < x
        · rw [if_pos h2] at hab; cases hab
        · rw [if_neg h2] at hab ⊢
          exact ih ys hab

theorem lexLt_trans : ∀ a b c : Path, lexLt a b = true → lexLt b c = true →
    lexLt a c = true := by
  intro a
  induction a with
  | nil =>
    intro b c hab hbc
    cases b with
    | nil => simp [lexLt] at hab
    | cons y ys =>
      cases c with
      | nil => simp [lexLt] at hbc
      | cons z zs => simp [lexLt]
  | cons x xs ih =>
    intro b c hab hbc
    cases b with
    | nil => simp [lexLt] at hab
    | cons y ys =>
      cases c with
      | nil => simp [lexLt] at hbc
      | cons z zs =>
        simp only [lexLt] at hab hbc ⊢
        by_cases h1 : x < y
        · by_cases h2 : y < z
          · rw [if_pos (by omega : x < z)]
          · by_cases h3 : z < y
            · rw [if_neg h2, if_pos h3] at hbc; cases hbc
            · rw [if_pos (by omega : x < z)]
        · by_cases h3 : y < x
          · rw [if_neg h1, if_pos h3] at hab; cases hab
          · by_cases h2 : y < z
            · rw [if_pos (by omega : x < z)]
            · by_cases h4 : z < y
              · rw [if_neg h2, if_pos h4] at hbc; cases hbc
              · rw [if_neg h1, if_neg h3] at hab
                rw [if_neg h2, if_neg h4] at hbc
                rw [if_neg (by omega : ¬ x < z), if_neg (by omega : ¬ z < x)]
                exact ih ys zs hab hbc

theorem lexLe_trans : ∀ a b c : Path, lexLe a b = true → lexLe b c = true →
    lexLe a c = true := by
  intro a
  induction a with
  | nil => intro b c _ _; simp [lexLe]
  | cons x xs ih =>
    intro b c hab hbc
    cases b with
    | nil => simp [lexLe] at hab
    | cons y ys =>
      cases c with
      | nil => simp [lexLe] at hbc
      | cons z zs =>
        simp only [lexLe] at hab hbc ⊢
        by_cases h1 : x < y
        · by_cases h2 : y < z
          · rw [if_pos (by omega : x < z)]
          · by_cases h3 : z < y
            · rw [if_neg h2, if_pos h3] at hbc; cases hbc
            · rw [if_pos (by omega : x < z)]
        · by_cases h3 : y < x
          · rw [if_neg h1, if_pos h3] at hab; cases hab
          · by_cases h2 : y < z
            · rw [if_pos (by omega : x < z)]
            · by_cases h4 : z < y
              · rw [if_neg h2, if_pos h4] at hbc; cases hbc
              · rw [if_neg h1, if_neg h3] at hab
                rw [if_neg h2, if_neg h4] at hbc
                rw [if_neg (by omega : ¬ x < z), if_neg (by omega : ¬ z < x)]
                exact ih ys zs hab hbc

/-- A prefix of a path is `≤` it in byte order. -/
theorem lexLe_of_isPrefixOf : ∀ p q : Path, p.isPrefixOf q = true →
    lexLe p q = true := by
  intro p
  induction p with
  | nil => intro q _; simp [lexLe]
  | cons a as ih =>
    intro q hpq
    cases q with
    | nil => simp [List.isPrefixOf] at hpq
    | cons b bs =>
      simp only [List.isPrefixOf, Bool.and_eq_true, beq_iff_eq] at hpq
      obtain ⟨hab, htl⟩ := hpq
      subst hab
      simp only [lexLe, lt_irrefl, if_neg, if_false]
      simpa using ih bs htl

/-- Pruning is sound on the low side: if `p` is neither a prefix of `l`
nor `≥ l`, then no path with prefix `p` reaches `l`. -/
theorem lexLe_eq_false_of_pre : ∀ p l q : Path, lexLe l p = false →
    p.isPrefixOf l = false → p.isPrefixOf q = true → lexLe l q = false := by
  intro p
  induction p with
  | nil => intro l q _ hnpre _; simp [List.isPrefixOf] at hnpre
  | cons a as ih =>
    intro l q hpl hnpre hpq
    cases l with
    | nil => simp [lexLe] at hpl
    | cons b bs =>
      cases q with
      | nil => simp [List.isPrefixOf] at hpq
      | cons c cs =>
        simp only [List.isPrefixOf, Bool.and_eq_true, beq_iff_eq] at hpq
        obtain ⟨hac, htl⟩ := hpq
        subst hac
        simp only [lexLe] at hpl ⊢
        by_cases h1 : b < a
        · rw [if_pos h1] at hpl; cases hpl
        · rw [if_neg h1] at hpl ⊢
          by_cases h2 : a < b
          · rw [if_pos h2]
          · rw [if_neg h2] at hpl ⊢
            have hab : a = b := by omega
            subst hab
            have hnpre2 : as.isPrefixOf bs = false := by
              simpa [List.isPrefixOf] using hnpre
            exact ih bs cs hpl hnpre2 htl

/-- Modelled from the spec: the serialized index tree (not under `src/`) —
a level-0 chunk is a run of consecutive leaf entries (here: their paths);
a higher-level chunk is a run of child chunks, each summarized in its
parent by its `[lower, upper]` path range. -/
inductive ITree where
  | leaf : List Path → ITree
  | node : List ITree → ITree

mutual

/-- The in-order leaf paths of a tree. -/
def ITree.leaves : ITree → List Path
  | .leaf ps => ps
  | .node ts => leavesList ts

/-- The in-order leaf paths of a chunk of trees. -/
def leavesList : List ITree → List Path
  | [] => []
  | t :: ts => t.leaves ++ leavesList ts

end

/-- Modelled from the spec: should the reader descend into a child whose
recorded range is `[lower, upper]` (the writer records the actual first
and last path of the chunk)? The ranges intersecting `p`'s prefix set are
exactly those with `p` a prefix of `lower`, or `lower ≤ p ≤ upper`: a
`p`-prefixed path is `≥ p`, and below any `lower` that `p` neither
reaches nor prefixes no `p`-prefixed path exists. An empty child is
skipped. -/
def descendPre (p : Path) (t : ITree) : Bool :=
  match t.leaves.head?, t.leaves.getLast? with
  | some l, some u => (p.isPrefixOf l || lexLe l p) && lexLe p u
  | _, _ => false

mutual

/-- Modelled from the spec: `Iterate` with `WithPrefix(p)` — at a leaf
chunk deliver the entries whose path has prefix `p`; at an inner chunk
descend, in order, into exactly the children whose range intersects `p`'s
prefix set. -/
def iterPre (p : Path) : ITree → List Path
  | .leaf ps => ps.filter (fun q => p.isPrefixOf q)
  | .node ts => iterPreList p ts

/-- `iterPre` over the children of an inner chunk. -/
def iterPreList (p : Path) : List ITree → List Path
  | [] => []
  | t :: ts => (if descendPre p t then iterPre p t else []) ++ iterPreList p ts

end

/-- Modelled from the spec: the content-defined chunker — split a stream
into consecutive nonempty chunks, the boundary decisions (which the writer
takes from a rolling hash over the serialized bytes, `averageBits` gating)
abstracted as `sizes`: each entry `n` closes a chunk after `n + 1`
elements, and the tail after the last boundary forms the final chunk. -/
def chunksOf : List Nat → List α → List (List α)
  | _, [] => []
  | [], xs => [xs]
  | n :: rest, xs => xs.take (n + 1) :: chunksOf rest (xs.drop (n + 1))

/-- Modelled from the spec: `Close` flushes each level upward — each level's
entries are chunked by its own boundary decisions into the next level —
until a level holds a single chunk, which is the root (a single-entry
level IS the root; with no further decisions the level is wrapped whole). -/
def buildUp : List (List Nat) → List ITree → ITree
  | _, [t] => t
  | [], ts => ITree.node ts
  | sizes :: rest, ts => buildUp rest ((chunksOf sizes ts).map ITree.node)

/-- Modelled from the spec: the index writer — the strictly increasing path
stream is cut into level-0 chunks by the first level's boundary decisions,
and the chunks are recursively rolled up into the root. -/
def writeIndex : List (List Nat) → List Path → ITree
  | [], paths => ITree.leaf paths
  | sizes :: rest, paths => buildUp rest ((chunksOf sizes paths).map ITree.leaf)

theorem chunksOf_nil (sizes : List Nat) : chunksOf sizes ([] : List α) = [] := by
  cases sizes <;> rfl

theorem chunksOf_join (sizes : List Nat) :
    ∀ xs : List α, (chunksOf sizes xs).flatten = xs := by
  induction sizes with
  | nil =>
    intro xs
    cases xs with
    | nil => rfl
    | cons x xs => simp [chunksOf]
  | cons n rest ih =>
    intro xs
    cases xs with
    | nil => rfl
    | cons x xs =>
      show ((x :: xs).take (n + 1) :: chunksOf rest ((x :: xs).drop (n + 1))).flatten
        = x :: xs
      rw [List.flatten_cons, ih]
      exact List.take_append_drop (n + 1) (x :: xs)

theorem leavesList_append (l1 l2 : List ITree) :
    leavesList (l1 ++ l2) = leavesList l1 ++ leavesList l2 := by
  induction l1 with
  | nil => rfl
  | cons t ts ih => simp [leavesList, ih]

theorem leavesList_map_node (css : List (List ITree)) :
    leavesList (css.map ITree.node) = leavesList css.flatten := by
  induction css with
  | nil => rfl
  | cons c cs ih =>
    show ITree.leaves (ITree.node c) ++ leavesList (cs.map ITree.node) =
      leavesList (c ++ cs.flatten)
    rw [leavesList_append, ih]
    rfl

theorem leavesList_map_leaf (pss : List (List Path)) :
    leavesList (pss.map ITree.leaf) = pss.flatten := by
  induction pss with
  | nil => rfl
  | cons ps pss ih =>
    show ITree.leaves (ITree.leaf ps) ++ leavesList (pss.map ITree.leaf) =
      ps ++ pss.flatten
    rw [ih]
    rfl

theorem buildUp_leaves (ss : List (List Nat)) :
    ∀ ts : List ITree, (buildUp ss ts).leaves = leavesList ts := by
  induction ss with
  | nil =>
    intro ts
    match ts with
    | [t] => show t.leaves = t.leaves ++ []; rw [List.append_nil]
    | [] => rfl
    | t1 :: t2 :: ts => rfl
  | cons sizes rest ih =>
    intro ts
    match ts with
    | [t] => show t.leaves = t.leaves ++ []; rw [List.append_nil]
    | [] =>
      show (buildUp rest ((chunksOf sizes ([] : List ITree)).map ITree.node)).leaves
        = leavesList []
      rw [chunksOf_nil sizes]
      exact ih []
    | t1 :: t2 :: ts =>
      show (buildUp rest ((chunksOf sizes (t1 :: t2 :: ts)).map ITree.node)).leaves
        = leavesList (t1 :: t2 :: ts)
      rw [ih, leavesList_map_node, chunksOf_join]

/-- The writer loses and reorders nothing: the tree's in-order leaves are
the written paths. -/
theorem writeIndex_leaves (ss : List (List Nat)) (P : List Path) :
    (writeIndex ss P).leaves = P := by
  cases ss with
  | nil => rfl
  | cons sizes rest =>
    show (buildUp rest ((chunksOf sizes P).map ITree.leaf)).leaves = P
    rw [buildUp_leaves, leavesList_map_leaf, chunksOf_join]

/-- In a strictly sorted list, the head is `≤` every element. -/
theorem pairwise_headLe {L : List Path} {l : Path}
    (h : L.Pairwise (fun a b => lexLt a b = true)) (hl : L.head? = some l) :
    ∀ q ∈ L, lexLe l q = true := by
  cases L with
  | nil => cases hl
  | cons x xs =>
    have hx : l = x := by simpa using hl.symm
    subst hx
    intro q hq
    rcases List.mem_cons.mp hq with hqx | hqtail
    · rw [hqx]; exact lexLe_refl l
    · exact lexLe_of_lexLt l q ((List.pairwise_cons.mp h).1 q hqtail)

/-- In a strictly sorted list, every element is `≤` the last. -/
theorem pairwise_leGetLast {L : List Path} {u : Path}
    (h : L.Pairwise (fun a b => lexLt a b = true)) (hu : L.getLast? = some u) :
    ∀ q ∈ L, lexLe q u = true := by
  induction L with
  | nil => intro q hq; cases hq
  | cons x xs ih =>
    cases xs with
    | nil =>
      intro q hq
      have hqx : q = x := by simpa using hq
      have hux : u = x := by simpa using hu.symm
      rw [hqx, hux]
      exact lexLe_refl x
    | cons y ys =>
      rw [List.getLast?_cons_cons] at hu
      intro q hq
      rcases List.mem_cons.mp hq with hqx | hqtail
      · have humem : u ∈ y :: ys := by
          obtain ⟨hne, hx⟩ := List.mem_getLast?_eq_getLast (x := u) hu
          rw [hx]
          exact List.getLast_mem hne
        subst hqx
        exact lexLe_of_lexLt q u ((List.pairwise_cons.mp h).1 u humem)
      · exact ih (List.pairwise_cons.mp h).2 hu q hqtail

/-- Pruning completeness: a child the reader skips holds no path with the
requested prefix. -/
theorem skipped_no_match (p : Path) (t : ITree)
    (hsort : t.leaves.Pairwise (fun a b => lexLt a b = true))
    (hd : descendPre p t = false) :
    ∀ q ∈ t.leaves, p.isPrefixOf q = false := by
  intro q hq
  cases hl : t.leaves.head? with
  | none =>
    rw [List.head?_eq_none_iff] at hl
    rw [hl] at hq
    cases hq
  | some l =>
    cases hu : t.leaves.getLast? with
    | none =>
      rw [List.getLast?_eq_none_iff] at hu
      rw [hu] at hq
      cases hq
    | some u =>
      unfold descendPre at hd
      rw [hl, hu] at hd
      by_contra hpre
      rw [Bool.not_eq_false] at hpre
      have hlq : lexLe l q = true := pairwise_headLe hsort hl q hq
      have hqu : lexLe q u = true := pairwise_leGetLast hsort hu q hq
      rcases Bool.and_eq_false_iff.mp hd with hlow | hhigh
      · rcases Bool.or_eq_false_iff.mp hlow with ⟨hnprel, hnle⟩
        rw [lexLe_eq_false_of_pre p l q hnle hnprel hpre] at hlq
        cases hlq
      · have hpq : lexLe p q = true := lexLe_of_isPrefixOf p q hpre
        rw [lexLe_trans p q u hpq hqu] at hhigh
        cases hhigh

mutual

/-- The reader agrees with a plain filter on any tree whose leaves are
strictly sorted. -/
theorem iterPre_eq (p : Path) :
    ∀ t : ITree, t.leaves.Pairwise (fun a b => lexLt a b = true) →
      iterPre p t = t.leaves.filter (fun q => p.isPrefixOf q)
  | .leaf _, _ => rfl
  | .node ts, h => iterPreList_eq p ts h

/-- `iterPre_eq` over a chunk of child trees. -/
theorem iterPreList_eq (p : Path) :
    ∀ ts : List ITree,
      (leavesList ts).Pairwise (fun a b => lexLt a b = true) →
      iterPreList p ts = (leavesList ts).filter (fun q => p.isPrefixOf q)
  | [], _ => rfl
  | t :: ts, h => by
    have hsplit := List.pairwise_append.mp
      (by simpa [leavesList] using h :
        (t.leaves ++ leavesList ts).Pairwise (fun a b => lexLt a b = true))
    show (if descendPre p t then iterPre p t else []) ++ iterPreList p ts = _
    rw [show leavesList (t :: ts) = t.leaves ++ leavesList ts from rfl,
      List.filter_append, iterPreList_eq p ts hsplit.2.1]
    congr 1
    by_cases hd : descendPre p t = true
    · rw [if_pos hd, iterPre_eq p t hsplit.1]
    · rw [if_neg hd]
      rw [Bool.not_eq_true] at hd
      symm
      rw [List.filter_eq_nil_iff]
      intro q hq
      simp [skipped_no_match p t hsplit.1 hd q hq]

end

/-- A strictly increasing sequence (adjacent comparisons) is pairwise
increasing, `lexLt` being transitive. -/
theorem pairwise_of_chain' {L : List Path}
    (h : L.Chain' (fun a b => lexLt a b = true)) :
    L.Pairwise (fun a b => lexLt a b = true) := by
  haveI : IsTrans Path (fun a b => lexLt a b = true) :=
    ⟨fun a b c => lexLt_trans a b c⟩
  exact List.chain'_iff_pairwise.mp h

/-- C8. For every index written from a strictly increasing path sequence
`P` (under any content-defined boundary decisions `ss`) and any prefix `p`
of some path of `P`, iterating with `WithPrefix(p)` yields exactly the
ordered filter `{ q ∈ P : p prefix of q }` — each matching path once, in
ascending byte order, and nothing else. -/
theorem index_withPre_roundtrip (ss : List (List Nat)) (P : List Path)
    (p : Path) (hsort : P.Chain' (fun a b => lexLt a b = true))
    (_hex : ∃ q ∈ P, p.isPrefixOf q = true) :
    iterPre p (writeIndex ss P) = P.filter (fun q => p.isPrefixOf q) := by
  have hp : P.Pairwise (fun a b => lexLt a b = true) := pairwise_of_chain' hsort
  have hleaves := writeIndex_leaves ss P
  rw [iterPre_eq p (writeIndex ss P) (by rw [hleaves]; exact hp), hleaves]

/-- C8, applied: the two-level index over `["a", "ab", "b"]` (split after
the first path) with prefix `"a"` returns `["a", "ab"]`. -/
theorem index_withPre_roundtrip_witness :
    iterPre [97] (writeIndex [[0]] [[97], [97, 98], [98]]) =
      ([[97], [97, 98], [98]] : List Path).filter
        (fun q => ([97] : Path).isPrefixOf q) :=
  index_withPre_roundtrip [[0]] [[97], [97, 98], [98]] [97]
    (List.Chain.cons (by decide) (List.Chain.cons (by decide) List.Chain.nil))
    ⟨[97], by decide, by decide⟩

end Pach
